import Mathlib

/-!
Verification development for the PostHog task-execution orchestrator.

The repository drives an external coding agent through research, plan and
build phases.  The pieces modelled here are the git lifecycle manager
(`GitManager` in the source), the workflow step loop of the orchestrator
facade, the per-step cancellation slot (`runACPStep`), and the protocol
client (`ACPWrapper`) with its terminal lifecycle, permission handling and
environment passing.

Git itself is external to the program: the manager shells out to the git
CLI.  A `GitRepo` value models the repository state those commands read and
write (HEAD commit, staged/unstaged changes, branches, commit log, pushes),
and each `GitManager` method is translated into a pure state transition
that mirrors what its git invocations do.
-/

set_option linter.unnecessarySeqFocus false

namespace Spec2Proof

/-- State of the external git repository as seen by the commands the
manager issues.  `unstaged` covers unstaged and untracked changes (what
makes `git status --porcelain` non-empty beyond the index), `staged` the
index (`git diff --cached --name-only`).  `log` is the list of commit
messages, most recent first; `pushed` records `git push` invocations, most
recent first.  `nextSha` supplies fresh commit ids. -/
structure GitRepo where
  headSha : Nat
  nextSha : Nat
  unstaged : Bool
  staged : Bool
  branches : List String
  currentBranch : String
  defaultBranch : String
  log : List String
  pushed : List String
  deriving DecidableEq, Repr

namespace GitManager

/-- `hasChanges`: `git status --porcelain` output is non-empty. -/
def hasChanges (r : GitRepo) : Bool := r.unstaged || r.staged

/-- `hasStagedChanges`: `git diff --cached --name-only` output is non-empty. -/
def hasStagedChanges (r : GitRepo) : Bool := r.staged

/-- Effect of `git add .`: everything in the working tree moves to the index. -/
def addAllDot (r : GitRepo) : GitRepo :=
  { r with staged := r.staged || r.unstaged, unstaged := false }

/-- Effect of the `git commit` issued by `commitChanges`: HEAD advances to a
fresh commit carrying `message`, the index is emptied. -/
def commitChanges (r : GitRepo) (message : String) : GitRepo :=
  { r with headSha := r.nextSha, nextSha := r.nextSha + 1, staged := false,
           log := message :: r.log }

/-- `pushBranch`: `git push -u origin <branch>`. -/
def pushBranch (r : GitRepo) (branchName : String) : GitRepo :=
  { r with pushed := branchName :: r.pushed }

/-- `getCurrentBranch`: `git branch --show-current`. -/
def getCurrentBranch (r : GitRepo) : String := r.currentBranch

/-- `getCommitSha` with the default `HEAD` argument: `git rev-parse HEAD`. -/
def getCommitSha (r : GitRepo) : Nat := r.headSha

/-- `branchExists`: `git rev-parse --verify <name>` succeeds. -/
def branchExists (r : GitRepo) (branchName : String) : Bool :=
  r.branches.contains branchName

/-- `switchToBranch`: `git checkout <name>`. -/
def switchToBranch (r : GitRepo) (branchName : String) : GitRepo :=
  { r with currentBranch := branchName }

/-- `createBranch`: `git checkout -b <name> <base>`, which fails when the
branch already exists and otherwise creates it and makes it current. -/
def createBranch (r : GitRepo) (branchName : String) (baseBranch : String) :
    Except String GitRepo :=
  if branchExists r branchName then
    Except.error ("Git command failed: checkout -b " ++ branchName ++ " " ++ baseBranch)
  else
    Except.ok { r with branches := branchName :: r.branches, currentBranch := branchName }

/-- `trackCommitsDuring` captures the HEAD SHA at the moment the tracker is
created; `finalize` receives it as `initialSha`. -/
def trackCommitsDuring (r : GitRepo) : Nat := getCommitSha r

/-- Options of the tracker's `finalize`. -/
structure FinalizeOptions where
  commitMessage : String
  push : Bool := false
  deriving DecidableEq, Repr

/-- Result of the tracker's `finalize`. -/
structure FinalizeResult where
  commitCreated : Bool
  pushedBranch : Bool
  deriving DecidableEq, Repr

/-- The `finalize` closure returned by `trackCommitsDuring`: re-reads HEAD,
commits leftover changes under the fallback message if the re-staged tree
is non-empty, and pushes the current branch when requested and a commit was
created. -/
def finalize (initialSha : Nat) (options : FinalizeOptions) (r : GitRepo) :
    GitRepo × FinalizeResult :=
  -- externalCommitsCreated := initialSha !== currentSha
  if !(initialSha != getCommitSha r) && !(hasChanges r) then
    (r, ⟨false, false⟩)
  else
    let afterCommit : GitRepo × Bool :=
      if hasChanges r then
        let r1 := addAllDot r
        if hasStagedChanges r1 then (commitChanges r1 options.commitMessage, true)
        else (r1, initialSha != getCommitSha r)
      else (r, initialSha != getCommitSha r)
    if options.push && afterCommit.2 then
      (pushBranch afterCommit.1 (getCurrentBranch afterCommit.1), ⟨afterCommit.2, true⟩)
    else
      (afterCommit.1, ⟨afterCommit.2, false⟩)

/-- Configuration fields of `GitManager` used by commit-command building. -/
structure GitConfig where
  authorName : Option String := none
  authorEmail : Option String := none
  deriving DecidableEq, Repr

/-- Options of `commitAndPush` and `buildCommitCommand`. -/
structure CommitOptions where
  allowEmpty : Bool := false
  authorName : Option String := none
  authorEmail : Option String := none
  deriving DecidableEq, Repr

/-- `buildCommitCommand`: the argument string handed to `git`.  `none`
models an absent author field (the JS code also treats the empty string as
absent; no claim depends on that difference). -/
def buildCommitCommand (cfg : GitConfig) (message : String) (options : CommitOptions) :
    String :=
  let command := "commit -m \"" ++ message.replace "\"" "\\\"" ++ "\""
  let command := if options.allowEmpty then command ++ " --allow-empty" else command
  let authorName := options.authorName.orElse fun _ => cfg.authorName
  let authorEmail := options.authorEmail.orElse fun _ => cfg.authorEmail
  match authorName, authorEmail with
  | some n, some e => command ++ " --author=\"" ++ n ++ " <" ++ e ++ ">\""
  | _, _ => command

/-- `commitAndPush`: when nothing is staged and `allowEmpty` is off it
returns without issuing any git command; otherwise it runs the built commit
command (which succeeds: either the index is non-empty or `--allow-empty`
is present) and pushes the current branch.  The second component is the
list of git command strings actually issued. -/
def commitAndPush (cfg : GitConfig) (message : String) (options : CommitOptions)
    (r : GitRepo) : GitRepo × List String :=
  if !hasStagedChanges r && !options.allowEmpty then
    (r, [])
  else
    let command := buildCommitCommand cfg message options
    let r1 := commitChanges r message
    let branch := getCurrentBranch r1
    let r2 := pushBranch r1 branch
    (r2, [command, "push -u origin " ++ branch])

/-- Suffix loop of `generateUniqueBranchName`: try `baseName-counter`,
`baseName-(counter+1)`, ... until a name is free.  The source loops while
`branchExists`; the fuel argument makes the recursion structural and is
chosen large enough at the call site for the loop to always find the first
free suffix (`uniqueNameLoop_spec`). -/
def uniqueNameLoop (branches : List String) (baseName : String) :
    Nat → Nat → String
  | counter, 0 => baseName ++ "-" ++ toString counter
  | counter, fuel + 1 =>
    let uniqueName := baseName ++ "-" ++ toString counter
    if branches.contains uniqueName then
      uniqueNameLoop branches baseName (counter + 1) fuel
    else uniqueName

/-- `generateUniqueBranchName`: the base name if free, otherwise the first
free `baseName-<counter>` with the counter starting at 1. -/
def generateUniqueBranchName (r : GitRepo) (baseName : String) : String :=
  if !branchExists r baseName then baseName
  else uniqueNameLoop r.branches baseName 1 (r.branches.length + 1)

/-- `ensureOnDefaultBranch`: switch to the default branch unless already on
it, refusing when uncommitted changes are present; returns the default
branch name. -/
def ensureOnDefaultBranch (r : GitRepo) : Except String (GitRepo × String) :=
  let defaultBranch := r.defaultBranch
  if r.currentBranch != defaultBranch then
    if hasChanges r then
      Except.error "Uncommitted changes detected. Please commit or stash changes before switching to default branch."
    else Except.ok (switchToBranch r defaultBranch, defaultBranch)
  else Except.ok (r, defaultBranch)

/-- `createTaskPlanningBranch`: derive `posthog/task-<id>-planning`, make
it unique, then create it from the explicit base or from the default
branch. -/
def createTaskPlanningBranch (r : GitRepo) (taskId : String)
    (baseBranch : Option String) : Except String (GitRepo × String) :=
  let baseName := "posthog/task-" ++ taskId ++ "-planning"
  let branchName := generateUniqueBranchName r baseName
  match baseBranch with
  | some base =>
    match createBranch r branchName base with
    | Except.ok r1 => Except.ok (r1, branchName)
    | Except.error e => Except.error e
  | none =>
    match ensureOnDefaultBranch r with
    | Except.ok (r1, base) =>
      match createBranch r1 branchName base with
      | Except.ok r2 => Except.ok (r2, branchName)
      | Except.error e => Except.error e
    | Except.error e => Except.error e

/-- Shorthand for the candidate branch names the suffix loop builds. -/
def suffixName (baseName : String) (k : Nat) : String :=
  baseName ++ "-" ++ toString k

/-- Concrete repository used to instantiate hypothesised theorems: a
checkout of `main` with one unstaged change. -/
def sampleRepo : GitRepo :=
  { headSha := 0, nextSha := 1, unstaged := true, staged := false,
    branches := ["main"], currentBranch := "main", defaultBranch := "main",
    log := [], pushed := [] }

/-- Concrete clean repository holding only `main`. -/
def mainOnlyRepo : GitRepo :=
  { headSha := 0, nextSha := 1, unstaged := false, staged := false,
    branches := ["main"], currentBranch := "main", defaultBranch := "main",
    log := [], pushed := [] }

/-- Result state of the first planning-branch request on `mainOnlyRepo`. -/
def planningRepo1 : GitRepo :=
  { mainOnlyRepo with branches := ["posthog/task-T-planning", "main"],
                      currentBranch := "posthog/task-T-planning" }

/-- Result state of the second planning-branch request. -/
def planningRepo2 : GitRepo :=
  { planningRepo1 with
      branches := ["posthog/task-T-planning-1", "posthog/task-T-planning", "main"],
      currentBranch := "posthog/task-T-planning-1" }

end GitManager

/-- Numeric value of a decimal digit character. -/
def digitVal (c : Char) : Nat := c.toNat - 48

/-- Evaluate a list of decimal digit characters, most significant first,
starting from the accumulator `acc`. -/
def evalDigitsFrom (acc : Nat) (l : List Char) : Nat :=
  l.foldl (fun a c => a * 10 + digitVal c) acc

namespace ACPWrapper

/-- State of one tracked terminal: buffered output chunks, exit code and
signal once the child process exited.  `pendingWaiters` counts the
continuations parked by `waitForTerminalExit` (`exitResolvers` in the
source). -/
structure TerminalState where
  output : List String
  exitCode : Option Int := none
  signal : Option String := none
  pendingWaiters : Nat := 0
  deriving DecidableEq, Repr

/-- stdout/stderr `data` event handler registered by `createTerminal`:
append the chunk to the buffer. -/
def onTerminalData (t : TerminalState) (chunk : String) : TerminalState :=
  { t with output := t.output ++ [chunk] }

/-- `exit` event handler registered by `createTerminal`: record code and
signal and resolve every pending waiter. -/
def onTerminalExit (t : TerminalState) (code : Option Int) (signal : Option String) :
    TerminalState :=
  { t with exitCode := code, signal := signal, pendingWaiters := 0 }

/-- Exit-status snapshot inside a `terminalOutput` response. -/
structure ExitStatus where
  exitCode : Option Int
  signal : Option String
  deriving DecidableEq, Repr

/-- Response of `terminalOutput`. -/
structure TerminalOutputResponse where
  output : String
  exitStatus : Option ExitStatus
  truncated : Bool
  deriving DecidableEq, Repr

/-- `terminalOutput`: look up the terminal, join the buffered chunks, and
attach an exit-status snapshot computed from the state at call time; the
function never waits for the process. -/
def terminalOutput (terminals : List (String × TerminalState)) (terminalId : String) :
    Except String TerminalOutputResponse :=
  match terminals.lookup terminalId with
  | none => Except.error ("Terminal " ++ terminalId ++ " not found")
  | some terminal =>
    let output := String.join terminal.output
    let exitStatus : Option ExitStatus :=
      if terminal.exitCode.isSome then some ⟨terminal.exitCode, none⟩
      else if terminal.signal.isSome then some ⟨none, terminal.signal⟩
      else none
    Except.ok ⟨output, exitStatus, false⟩

/-- Terminal still producing output in the C7 scenario: partial buffer, no
exit yet. -/
def runningTerminal : TerminalState := onTerminalData ⟨[], none, none, 0⟩ "partial "

/-- The same terminal after more output and exit with code 2. -/
def exitedTerminal : TerminalState :=
  onTerminalExit (onTerminalData runningTerminal "output") (some 2) none

/-- Fields of the wrapper cleared by `stop`: tracked terminals, the agent
subprocess, the connection and the session id. -/
structure WrapperState where
  terminals : List (String × TerminalState)
  subprocess : Option Nat := none
  connection : Option Nat := none
  sessionId : Option String := none
  deriving DecidableEq, Repr

/-- Termination signals `stop` sends. -/
inductive StopEffect
  | killTerminal (terminalId : String)
  | killSubprocess
  deriving DecidableEq, Repr

/-- The loop at the top of `stop`: SIGTERM to every tracked terminal whose
exit code and signal are both still unset. -/
def stopTerminalLoop : List (String × TerminalState) → List StopEffect
  | [] => []
  | (terminalId, terminal) :: rest =>
    if terminal.exitCode.isNone && terminal.signal.isNone then
      StopEffect.killTerminal terminalId :: stopTerminalLoop rest
    else stopTerminalLoop rest

/-- `stop`: kill running terminals, clear the terminal map, kill the
subprocess when one is attached, and drop connection and session id.
Returns the new state and the signals sent. -/
def stop (s : WrapperState) : WrapperState × List StopEffect :=
  let termEffects := stopTerminalLoop s.terminals
  let s1 : WrapperState := { s with terminals := [] }
  let step2 : WrapperState × List StopEffect :=
    match s1.subprocess with
    | some _ => ({ s1 with subprocess := none }, termEffects ++ [StopEffect.killSubprocess])
    | none => (s1, termEffects)
  ({ step2.1 with connection := none, sessionId := none }, step2.2)

/-- One spawned terminal child process together with the environment map
handed to `spawn`. -/
structure SpawnedTerminal where
  command : String
  env : List (String × String)
  deriving DecidableEq, Repr

/-- Orchestrator-process-global state touched by `createTerminal`:
`process.env` and the terminals spawned so far. -/
structure TerminalSpawnState where
  processEnv : List (String × String)
  spawned : List SpawnedTerminal
  deriving DecidableEq, Repr

/-- One key of an `Object.assign` step on an association list: overwrite in
place when present, append otherwise. -/
def setEnvKey (m : List (String × String)) (k v : String) : List (String × String) :=
  if m.any (fun p => p.1 == k) then
    m.map (fun p => bif p.1 == k then (k, v) else p)
  else m ++ [(k, v)]

/-- `Object.assign(envVars, params.env)` on association lists. -/
def objectAssign (target entries : List (String × String)) : List (String × String) :=
  entries.foldl (fun m p => setEnvKey m p.1 p.2) target

/-- `createTerminal`: `envVars` is `process.env` itself, not a copy, so the
`Object.assign` merge lands in the orchestrator's global environment, and
the child is spawned with that same mutated map. -/
def createTerminal (st : TerminalSpawnState) (command : String)
    (env : Option (List (String × String))) : TerminalSpawnState :=
  let envVars := st.processEnv
  let envVars :=
    match env with
    | some entries => objectAssign envVars entries
    | none => envVars
  { processEnv := envVars,
    spawned := st.spawned ++ [{ command := command, env := envVars }] }

/-- One option offered in a permission request. -/
structure PermissionOption where
  optionId : String
  kind : String
  deriving DecidableEq, Repr

/-- Outcome of a permission response; the protocol also admits a cancelled
outcome, which this code never produces. -/
inductive PermissionOutcome
  | selected (optionId : String)
  | cancelled
  deriving DecidableEq, Repr

/-- The JavaScript `s || dflt` on an optional string: the default when the
value is absent or empty. -/
def jsOrDefault (s : Option String) (dflt : String) : String :=
  match s with
  | none => dflt
  | some v => if v == "" then dflt else v

/-- `requestPermission`: auto-approve the first allow-capable option and
otherwise fall back to `params.options[0]?.optionId || ''`. -/
def requestPermission (options : List PermissionOption) : PermissionOutcome :=
  match options.find? (fun opt => opt.kind == "allow_once" || opt.kind == "allow_always") with
  | some allowOption => PermissionOutcome.selected allowOption.optionId
  | none =>
    PermissionOutcome.selected
      (jsOrDefault ((options.head?).map fun opt => opt.optionId) "")

/-- Restatement of claim C10's selection rule in the claim's own words, to
compare with `requestPermission`: the first allow-capable option's id, else
the first option's id, else the empty string. -/
def claimSelectedId (options : List PermissionOption) : String :=
  match options.find? (fun opt => opt.kind == "allow_once" || opt.kind == "allow_always") with
  | some allowOption => allowOption.optionId
  | none =>
    match options with
    | [] => ""
    | opt :: _ => opt.optionId

end ACPWrapper

namespace Workflow

/-- Status in a step result. -/
inductive StepStatus
  | completed
  | skipped
  deriving DecidableEq, Repr

/-- Result of one workflow step's `run`. -/
structure StepResult where
  status : StepStatus
  halt : Bool := false
  deriving DecidableEq, Repr

/-- The step loop of `Agent.runTask`: run each step of the ordered list in
turn; a thrown error propagates immediately, a halting result stops the
loop without error.  Each list entry is what that step's `run` does when
executed (its result, or the error it throws).  Returns how many steps were
executed together with the propagated error or the halt flag. -/
def runWorkflowSteps : List (Except String StepResult) → Nat × Except String Bool
  | [] => (0, Except.ok false)
  | outcome :: rest =>
    match outcome with
    | Except.error e => (1, Except.error e)
    | Except.ok result =>
      if result.halt then (1, Except.ok true)
      else
        let next := runWorkflowSteps rest
        (next.1 + 1, next.2)

/-- Status of a `TaskRun`. -/
inductive RunStatus
  | started
  | inProgress
  | completed
  | failed
  deriving DecidableEq, Repr

/-- The `TaskRun` fields the progress reporter writes. -/
structure TaskRun where
  status : RunStatus
  error_message : Option String := none
  deriving DecidableEq, Repr

namespace TaskProgressReporter

/-- `TaskProgressReporter.fail`: set status `failed` with the error message. -/
def fail (run : TaskRun) (message : String) : TaskRun :=
  { run with status := RunStatus.failed, error_message := some message }

/-- `TaskProgressReporter.complete`: set status `completed`. -/
def complete (run : TaskRun) : TaskRun :=
  { run with status := RunStatus.completed }

end TaskProgressReporter

/-- Modelled from the spec: the code that reacts to an error propagating
out of the step loop is not under `src/` (the reporter's `fail` is defined
there but never called there); per the spec the workflow engine "stops
processing further steps and marks the TaskRun failed" with the error
message, marks it completed after a full pass, and returns without
completing when a step halted the run. -/
def runTaskReported (steps : List (Except String StepResult)) (run : TaskRun) :
    Nat × TaskRun :=
  match runWorkflowSteps steps with
  | (n, Except.error e) => (n, TaskProgressReporter.fail run e)
  | (n, Except.ok true) => (n, run)
  | (n, Except.ok false) => (n, TaskProgressReporter.complete run)

/-- The shared cancellation slot `context.currentWrapper` together with the
history of assignments made to its `wrapper` field, oldest first. -/
structure CancellationSlot where
  wrapper : Option Nat
  assignments : List (Option Nat)
  deriving DecidableEq, Repr

/-- One assignment `currentWrapper.wrapper = w`. -/
def assignWrapper (s : CancellationSlot) (w : Option Nat) : CancellationSlot :=
  { wrapper := w, assignments := s.assignments ++ [w] }

/-- The three awaited calls inside the `try` of `runACPStep`, each of which
may throw; on success the step returns the collected message text. -/
def acpStepBody (startResult createSessionResult promptResult : Except String Unit)
    (collected : String) : Except String String :=
  match startResult with
  | Except.error e => Except.error e
  | Except.ok _ =>
    match createSessionResult with
    | Except.error e => Except.error e
    | Except.ok _ =>
      match promptResult with
      | Except.error e => Except.error e
      | Except.ok _ => Except.ok collected

/-- `runACPStep`: store the step's wrapper in the shared slot before the
session starts, run the body, and in the `finally` stop the wrapper and
clear the slot whether the body returned or threw; the body's outcome is
then propagated to the caller. -/
def runACPStep (wrapperId : Nat) (body : Except String String) (s : CancellationSlot) :
    CancellationSlot × Except String String :=
  let s1 := assignWrapper s (some wrapperId)
  let outcome := body
  let s2 := assignWrapper s1 none
  (s2, outcome)

end Workflow

/-! Decimal numerals are injective: needed to know that the candidate
names `base-1`, `base-2`, ... of the suffix loop are pairwise distinct. -/

theorem digitVal_digitChar : ∀ d, d < 10 → digitVal (Nat.digitChar d) = d := by decide

theorem evalDigitsFrom_cons (acc : Nat) (c : Char) (l : List Char) :
    evalDigitsFrom acc (c :: l) = evalDigitsFrom (acc * 10 + digitVal c) l := rfl

theorem toDigitsCore_eval :
    ∀ (fuel n : Nat) (ds : List Char), n < 10 ^ fuel →
      evalDigitsFrom 0 (Nat.toDigitsCore 10 fuel n ds) = evalDigitsFrom n ds := by
  intro fuel
  induction fuel with
  | zero =>
    intro n ds h
    have hn : n = 0 := by omega
    subst hn
    rfl
  | succ fuel ih =>
    intro n ds h
    have hstep : Nat.toDigitsCore 10 (fuel + 1) n ds
        = if n / 10 = 0 then Nat.digitChar (n % 10) :: ds
          else Nat.toDigitsCore 10 fuel (n / 10) (Nat.digitChar (n % 10) :: ds) := rfl
    rw [hstep]
    by_cases h10 : n / 10 = 0
    · rw [if_pos h10, evalDigitsFrom_cons]
      have hd : digitVal (Nat.digitChar (n % 10)) = n % 10 :=
        digitVal_digitChar (n % 10) (Nat.mod_lt n (by norm_num))
      rw [hd]
      have hn : n % 10 = n := by omega
      simp [hn]
    · rw [if_neg h10]
      have hlt : n / 10 < 10 ^ fuel := by
        have hpow : 10 ^ (fuel + 1) = 10 ^ fuel * 10 := pow_succ 10 fuel
        rw [Nat.div_lt_iff_lt_mul (show 0 < 10 by norm_num), ← hpow]
        exact h
      rw [ih (n / 10) (Nat.digitChar (n % 10) :: ds) hlt, evalDigitsFrom_cons]
      have hd : digitVal (Nat.digitChar (n % 10)) = n % 10 :=
        digitVal_digitChar (n % 10) (Nat.mod_lt n (by norm_num))
      rw [hd]
      have hn : n / 10 * 10 + n % 10 = n := by omega
      rw [hn]

theorem eval_toDigits (n : Nat) : evalDigitsFrom 0 (Nat.toDigits 10 n) = n := by
  have h : n < 10 ^ (n + 1) := by
    calc n < 10 ^ n := Nat.lt_pow_self (by norm_num) n
      _ ≤ 10 ^ (n + 1) := Nat.pow_le_pow_right (by norm_num) (Nat.le_succ n)
  exact toDigitsCore_eval (n + 1) n [] h

theorem nat_repr_injective (m n : Nat) (h : Nat.repr m = Nat.repr n) : m = n := by
  have hd : Nat.toDigits 10 m = Nat.toDigits 10 n := by
    have hdata := congrArg String.data h
    simpa [Nat.repr, List.asString] using hdata
  have := congrArg (evalDigitsFrom 0) hd
  rwa [eval_toDigits, eval_toDigits] at this

theorem toString_nat_injective (m n : Nat) (h : (toString m : String) = toString n) :
    m = n :=
  nat_repr_injective m n h

namespace GitManager

theorem suffixName_inj (baseName : String) (m n : Nat)
    (h : suffixName baseName m = suffixName baseName n) : m = n := by
  have hdata := congrArg String.data h
  simp only [suffixName, String.data_append] at hdata
  have h2 := List.append_cancel_left hdata
  exact toString_nat_injective m n (by
    apply congrArg List.asString at h2
    simpa [List.asString] using h2)

/-- The suffix loop, given enough fuel to reach a free suffix, returns the
first free suffix at or after its starting counter. -/
theorem uniqueNameLoop_spec (branches : List String) (baseName : String) :
    ∀ (fuel counter : Nat),
      (∃ j, j ≤ fuel ∧ branches.contains (suffixName baseName (counter + j)) = false) →
      ∃ j, j ≤ fuel ∧
        uniqueNameLoop branches baseName counter fuel = suffixName baseName (counter + j) ∧
        branches.contains (suffixName baseName (counter + j)) = false ∧
        ∀ i, i < j → branches.contains (suffixName baseName (counter + i)) = true := by
  intro fuel
  induction fuel with
  | zero =>
    intro counter h
    obtain ⟨j, hj, hfree⟩ := h
    have hj0 : j = 0 := by omega
    subst hj0
    exact ⟨0, Nat.le_refl 0, rfl, hfree, fun i hi => absurd hi (by omega)⟩
  | succ fuel ih =>
    intro counter h
    by_cases hc : branches.contains (suffixName baseName counter) = true
    · have h' : ∃ j, j ≤ fuel ∧
          branches.contains (suffixName baseName (counter + 1 + j)) = false := by
        obtain ⟨j, hj, hfree⟩ := h
        cases j with
        | zero =>
          rw [Nat.add_zero, hc] at hfree
          exact absurd hfree (by simp)
        | succ j' =>
          refine ⟨j', by omega, ?_⟩
          have harith : counter + 1 + j' = counter + (j' + 1) := by omega
          rw [harith]
          exact hfree
      obtain ⟨j, hj, heq, hfree, hmin⟩ := ih (counter + 1) h'
      have harith : counter + 1 + j = counter + (j + 1) := by omega
      refine ⟨j + 1, by omega, ?_, ?_, ?_⟩
      · show uniqueNameLoop branches baseName counter (fuel + 1) = _
        rw [show uniqueNameLoop branches baseName counter (fuel + 1)
              = if branches.contains (baseName ++ "-" ++ toString counter)
                then uniqueNameLoop branches baseName (counter + 1) fuel
                else baseName ++ "-" ++ toString counter from rfl]
        rw [show (baseName ++ "-" ++ toString counter) = suffixName baseName counter from rfl,
            hc]
        simp only [if_true]
        rw [heq, harith]
      · rw [← harith]; exact hfree
      · intro i hi
        cases i with
        | zero => simpa using hc
        | succ i' =>
          have harith2 : counter + (i' + 1) = counter + 1 + i' := by omega
          rw [harith2]
          exact hmin i' (by omega)
    · refine ⟨0, by omega, ?_, ?_, fun i hi => absurd hi (by omega)⟩
      · show uniqueNameLoop branches baseName counter (fuel + 1) = _
        rw [show uniqueNameLoop branches baseName counter (fuel + 1)
              = if branches.contains (baseName ++ "-" ++ toString counter)
                then uniqueNameLoop branches baseName (counter + 1) fuel
                else baseName ++ "-" ++ toString counter from rfl]
        rw [show (baseName ++ "-" ++ toString counter) = suffixName baseName counter from rfl]
        have hcf : branches.contains (suffixName baseName counter) = false := by
          cases hb : branches.contains (suffixName baseName counter)
          · rfl
          · exact absurd hb hc
        rw [hcf, if_neg Bool.false_ne_true, Nat.add_zero]
      · rw [Nat.add_zero]
        simpa using hc

/-- Among the `branches.length + 1` candidates `base-counter`, ...,
`base-(counter + branches.length)` at least one is not an existing branch:
they are pairwise distinct and there are more of them than branches. -/
theorem exists_free_suffix (branches : List String) (baseName : String) (counter : Nat) :
    ∃ j, j ≤ branches.length ∧
      branches.contains (suffixName baseName (counter + j)) = false := by
  by_contra hall
  push_neg at hall
  have hmem : ∀ j, j ≤ branches.length → suffixName baseName (counter + j) ∈ branches := by
    intro j hj
    have h1 := hall j hj
    have h2 : branches.contains (suffixName baseName (counter + j)) = true := by
      cases hb : branches.contains (suffixName baseName (counter + j))
      · exact absurd hb h1
      · rfl
    exact List.elem_iff.mp h2
  have hinj : Set.InjOn (fun j => suffixName baseName (counter + j))
      ((Finset.range (branches.length + 1)) : Finset Nat) := by
    intro a _ b _ hab
    have := suffixName_inj baseName (counter + a) (counter + b) hab
    omega
  have hcard : ((Finset.range (branches.length + 1)).image
      (fun j => suffixName baseName (counter + j))).card = branches.length + 1 := by
    rw [Finset.card_image_of_injOn hinj, Finset.card_range]
  have hsub : (Finset.range (branches.length + 1)).image
      (fun j => suffixName baseName (counter + j)) ⊆ branches.toFinset := by
    intro x hx
    rw [Finset.mem_image] at hx
    obtain ⟨j, hj, rfl⟩ := hx
    rw [List.mem_toFinset]
    exact hmem j (by simpa using Nat.lt_succ_iff.mp (Finset.mem_range.mp hj))
  have hle := Finset.card_le_card hsub
  have hlen := branches.toFinset_card_le
  omega

/-- Claim C1: for every finalize call on the tracker returned by
`trackCommitsDuring`: when HEAD equals the captured hash and the tree is
clean, finalize returns `commitCreated = false` (and leaves the repository
untouched); when HEAD moved and the tree is clean, it returns
`commitCreated = true` without making any new commit; when HEAD did not
move but uncommitted changes exist, it stages everything, makes exactly one
new commit carrying the fallback message, and returns
`commitCreated = true`. -/
theorem finalize_reconciliation (r0 r1 : GitRepo) (options : FinalizeOptions) :
    (r1.headSha = trackCommitsDuring r0 → hasChanges r1 = false →
        finalize (trackCommitsDuring r0) options r1 = (r1, ⟨false, false⟩)) ∧
    (r1.headSha ≠ trackCommitsDuring r0 → hasChanges r1 = false →
        (finalize (trackCommitsDuring r0) options r1).2.commitCreated = true ∧
        (finalize (trackCommitsDuring r0) options r1).1.log = r1.log) ∧
    (r1.headSha = trackCommitsDuring r0 → hasChanges r1 = true →
        (finalize (trackCommitsDuring r0) options r1).2.commitCreated = true ∧
        (finalize (trackCommitsDuring r0) options r1).1.log
            = options.commitMessage :: r1.log ∧
        (finalize (trackCommitsDuring r0) options r1).1.unstaged = false ∧
        (finalize (trackCommitsDuring r0) options r1).1.staged = false) := by
  refine ⟨?_, ?_, ?_⟩
  · intro hsha hclean
    have hfalse : (trackCommitsDuring r0 != getCommitSha r1) = false := by
      simp [bne_eq_false_iff_eq]
      exact hsha.symm
    simp [finalize, hfalse, hclean]
  · intro hsha hclean
    have hne : (trackCommitsDuring r0 != getCommitSha r1) = true :=
      bne_iff_ne.mpr fun h => hsha h.symm
    cases hp : options.push <;>
      simp [finalize, hne, hclean, hp, pushBranch, getCurrentBranch]
  · intro hsha hdirty
    have hor : (r1.staged || r1.unstaged) = true := by
      have h2 := hdirty
      simp [hasChanges] at h2
      rcases h2 with h2 | h2 <;> simp [h2]
    cases hp : options.push <;>
      simp [finalize, hdirty, hor, hp, hasStagedChanges, addAllDot, commitChanges,
            pushBranch, getCurrentBranch]

/-- Witness for claim C1: on a repository whose HEAD did not move but which
has an uncommitted change, finalize commits exactly once with the fallback
message. -/
theorem finalize_reconciliation_witness :
    sampleRepo.headSha = trackCommitsDuring sampleRepo ∧
    hasChanges sampleRepo = true ∧
    ((finalize (trackCommitsDuring sampleRepo) ⟨"fallback", false⟩ sampleRepo).2.commitCreated
        = true ∧
      (finalize (trackCommitsDuring sampleRepo) ⟨"fallback", false⟩ sampleRepo).1.log
        = "fallback" :: sampleRepo.log ∧
      (finalize (trackCommitsDuring sampleRepo) ⟨"fallback", false⟩ sampleRepo).1.unstaged
        = false ∧
      (finalize (trackCommitsDuring sampleRepo) ⟨"fallback", false⟩ sampleRepo).1.staged
        = false) :=
  ⟨rfl, rfl, (finalize_reconciliation sampleRepo sampleRepo ⟨"fallback", false⟩).2.2 rfl rfl⟩

/-- Claim C5: finalize reports `pushedBranch = true` exactly when `push`
was requested and a commit was created; in that case it pushes the current
branch, otherwise it pushes nothing. -/
theorem finalize_push_iff (initialSha : Nat) (options : FinalizeOptions) (r : GitRepo) :
    (finalize initialSha options r).2.pushedBranch
        = (options.push && (finalize initialSha options r).2.commitCreated) ∧
    ((finalize initialSha options r).2.pushedBranch = true →
        (finalize initialSha options r).1.pushed = r.currentBranch :: r.pushed) ∧
    ((finalize initialSha options r).2.pushedBranch = false →
        (finalize initialSha options r).1.pushed = r.pushed) := by
  cases hb : (initialSha != getCommitSha r) <;>
    cases hu : r.unstaged <;>
    cases hs : r.staged <;>
    cases hp : options.push <;>
    simp [finalize, hasChanges, hasStagedChanges, addAllDot, commitChanges,
          pushBranch, getCurrentBranch, hb, hu, hs, hp]

/-- Witness for claim C5: with `push` requested over a repository holding
an uncommitted change, finalize reports and performs the push. -/
theorem finalize_push_iff_witness :
    (finalize 0 ⟨"fallback", true⟩ sampleRepo).2.pushedBranch = true ∧
    (finalize 0 ⟨"fallback", true⟩ sampleRepo).1.pushed
        = sampleRepo.currentBranch :: sampleRepo.pushed :=
  ⟨rfl, (finalize_push_iff 0 ⟨"fallback", true⟩ sampleRepo).2.1 rfl⟩

/-- Claim C4: `commitAndPush` with `allowEmpty` off and a clean index is a
no-op that issues no git command at all; with `allowEmpty` on it always
creates a commit and the issued commit command carries `--allow-empty`. -/
theorem commitAndPush_empty_behavior (cfg : GitConfig) (message : String)
    (options : CommitOptions) (r : GitRepo) :
    (hasStagedChanges r = false → options.allowEmpty = false →
        commitAndPush cfg message options r = (r, [])) ∧
    (options.allowEmpty = true →
        (commitAndPush cfg message options r).1.log = message :: r.log ∧
        ∃ s t, (commitAndPush cfg message options r).2
            = [s ++ " --allow-empty" ++ t, "push -u origin " ++ r.currentBranch]) := by
  constructor
  · intro h1 h2
    simp [commitAndPush, h1, h2]
  · intro h
    refine ⟨?_, ?_⟩
    · simp [commitAndPush, h, commitChanges, pushBranch]
    · refine ⟨"commit -m \"" ++ message.replace "\"" "\\\"" ++ "\"", ?_, ?_⟩
      · exact match options.authorName.orElse fun _ => cfg.authorName,
              options.authorEmail.orElse fun _ => cfg.authorEmail with
        | some n, some e => " --author=\"" ++ n ++ " <" ++ e ++ ">\""
        | _, _ => ""
      · simp only [commitAndPush, h, Bool.not_true, Bool.and_false, Bool.false_eq_true,
          if_false, buildCommitCommand, if_true, pushBranch, commitChanges, getCurrentBranch]
        cases hA : options.authorName.orElse fun _ => cfg.authorName <;>
          cases hE : options.authorEmail.orElse fun _ => cfg.authorEmail <;>
          simp [hA, hE, String.append_assoc] <;> rfl

/-- Witness for claim C4: a clean index with `allowEmpty` off issues
nothing; the input repository is returned untouched. -/
theorem commitAndPush_empty_behavior_witness :
    hasStagedChanges mainOnlyRepo = false ∧
    commitAndPush {} "msg" {} mainOnlyRepo = (mainOnlyRepo, []) :=
  ⟨rfl, (commitAndPush_empty_behavior {} "msg" {} mainOnlyRepo).1 rfl rfl⟩

/-- Counterexample for claim C3 as stated: the first planning-branch
request for task id `T` yields `posthog/task-T-planning`, not the claimed
`tasks/T-planning`. -/
theorem planning_branch_name_counterexample :
    createTaskPlanningBranch mainOnlyRepo "T" none
        = Except.ok (planningRepo1, "posthog/task-T-planning") ∧
    "posthog/task-T-planning" ≠ "tasks/T-planning" :=
  ⟨rfl, by decide⟩

/-- Claim C3 (amended to the branch names the code builds): when the
desired base name exists, a numeric suffix is appended and incremented
until a free name is found, never reusing an existing branch; requesting a
planning branch twice for task id `T` yields `posthog/task-T-planning`
first and `posthog/task-T-planning-1` second. -/
theorem planning_branch_collision_resolution :
    (∀ (r : GitRepo) (baseName : String),
        (branchExists r baseName = false → generateUniqueBranchName r baseName = baseName) ∧
        branchExists r (generateUniqueBranchName r baseName) = false ∧
        (branchExists r baseName = true →
          ∃ n, 1 ≤ n ∧
            generateUniqueBranchName r baseName = baseName ++ "-" ++ toString n ∧
            ∀ m, 1 ≤ m → m < n →
              branchExists r (baseName ++ "-" ++ toString m) = true)) ∧
    createTaskPlanningBranch mainOnlyRepo "T" none
        = Except.ok (planningRepo1, "posthog/task-T-planning") ∧
    createTaskPlanningBranch planningRepo1 "T" none
        = Except.ok (planningRepo2, "posthog/task-T-planning-1") := by
  refine ⟨?_, rfl, rfl⟩
  intro r baseName
  by_cases hb : branchExists r baseName = true
  · have hex : ∃ j, j ≤ r.branches.length + 1 ∧
        r.branches.contains (suffixName baseName (1 + j)) = false := by
      obtain ⟨j, hj, hfree⟩ := exists_free_suffix r.branches baseName 1
      exact ⟨j, by omega, hfree⟩
    obtain ⟨j, hj, heq, hfree, hmin⟩ :=
      uniqueNameLoop_spec r.branches baseName (r.branches.length + 1) 1 hex
    have hgen : generateUniqueBranchName r baseName
        = uniqueNameLoop r.branches baseName 1 (r.branches.length + 1) := by
      simp [generateUniqueBranchName, hb]
    refine ⟨fun hcontra => absurd hb (by simp [hcontra]), ?_, ?_⟩
    · rw [hgen, heq]
      exact hfree
    · intro _
      refine ⟨1 + j, by omega, ?_, ?_⟩
      · rw [hgen, heq]
        rfl
      · intro m hm1 hmj
        have hi : m - 1 < j := by omega
        have := hmin (m - 1) hi
        have harith : 1 + (m - 1) = m := by omega
        rw [harith] at this
        exact this
  · have hbf : branchExists r baseName = false := by
      cases hx : branchExists r baseName
      · rfl
      · exact absurd hx hb
    refine ⟨fun _ => by simp [generateUniqueBranchName, hbf], ?_, fun hcontra => absurd hcontra hb⟩
    simp [generateUniqueBranchName, hbf]

/-- Witness for the amended claim C3: on the state after the first request,
the base name is taken and the generator returns the suffix-1 name with all
smaller suffixes (there are none) taken. -/
theorem planning_branch_collision_resolution_witness :
    branchExists planningRepo1 "posthog/task-T-planning" = true ∧
    (∃ n, 1 ≤ n ∧
      generateUniqueBranchName planningRepo1 "posthog/task-T-planning"
          = "posthog/task-T-planning" ++ "-" ++ toString n ∧
      ∀ m, 1 ≤ m → m < n →
        branchExists planningRepo1 ("posthog/task-T-planning" ++ "-" ++ toString m) = true) :=
  ⟨rfl, (planning_branch_collision_resolution.1 planningRepo1 "posthog/task-T-planning").2.2 rfl⟩

end GitManager

namespace Workflow

/-- Ordered-step loop helper: with every step before the failing one
succeeding without halt, the loop executes exactly the prefix and the
failing step, and propagates that step's error. -/
theorem runWorkflowSteps_error (pre post : List (Except String StepResult)) (e : String)
    (hpre : ∀ o ∈ pre, ∃ res, o = Except.ok res ∧ res.halt = false) :
    runWorkflowSteps (pre ++ Except.error e :: post) = (pre.length + 1, Except.error e) := by
  induction pre with
  | nil => rfl
  | cons o rest ih =>
    obtain ⟨res, ho, hhalt⟩ := hpre o (List.mem_cons_self o rest)
    subst ho
    have hrest := ih fun o' ho' => hpre o' (List.mem_cons_of_mem _ ho')
    simp [runWorkflowSteps, hhalt, hrest]

/-- Claim C2: an unexpected error thrown inside a workflow step propagates
out of the step loop, no later step of the ordered list is executed, and
the TaskRun is marked `failed` carrying the error message. -/
theorem step_error_marks_run_failed (pre post : List (Except String StepResult))
    (e : String) (run : TaskRun)
    (hpre : ∀ o ∈ pre, ∃ res, o = Except.ok res ∧ res.halt = false) :
    runWorkflowSteps (pre ++ Except.error e :: post) = (pre.length + 1, Except.error e) ∧
    runTaskReported (pre ++ Except.error e :: post) run
        = (pre.length + 1, ⟨RunStatus.failed, some e⟩) := by
  have hmain := runWorkflowSteps_error pre post e hpre
  refine ⟨hmain, ?_⟩
  simp [runTaskReported, hmain, TaskProgressReporter.fail]

/-- Witness for claim C2: one completed step, then a throwing step, then a
step that is never reached. -/
theorem step_error_marks_run_failed_witness :
    runTaskReported
        [Except.ok ⟨StepStatus.completed, false⟩, Except.error "boom",
          Except.ok ⟨StepStatus.completed, false⟩]
        ⟨RunStatus.started, none⟩
      = (2, ⟨RunStatus.failed, some "boom"⟩) :=
  (step_error_marks_run_failed [Except.ok ⟨StepStatus.completed, false⟩]
      [Except.ok ⟨StepStatus.completed, false⟩] "boom" ⟨RunStatus.started, none⟩
      (fun _ ho => ⟨⟨StepStatus.completed, false⟩, List.mem_singleton.mp ho, rfl⟩)).2

/-- Claim C6: the shared cancellation slot receives the step's wrapper
before the session starts and is cleared on every exit path — whichever of
start, createSession or prompt throws — so after the step the slot holds
nothing and the whole history of slot assignments made by the step is
exactly one set followed by one clear; the body's outcome is propagated
unchanged. -/
theorem runACPStep_slot_discipline (wrapperId : Nat)
    (startResult createSessionResult promptResult : Except String Unit)
    (collected : String) (s : CancellationSlot) :
    (runACPStep wrapperId
        (acpStepBody startResult createSessionResult promptResult collected) s).1.wrapper
      = none ∧
    (runACPStep wrapperId
        (acpStepBody startResult createSessionResult promptResult collected) s).1.assignments
      = s.assignments ++ [some wrapperId, none] ∧
    (runACPStep wrapperId
        (acpStepBody startResult createSessionResult promptResult collected) s).2
      = acpStepBody startResult createSessionResult promptResult collected := by
  refine ⟨rfl, ?_, rfl⟩
  simp [runACPStep, assignWrapper]

end Workflow

namespace ACPWrapper

/-- Claim C7: `terminalOutput` on a tracked terminal returns a snapshot of
the buffer at call time: before the process exits the exit status is null;
after an exit with code `c` the status carries `exitCode = c` and a null
signal, alongside the full buffered output. -/
theorem terminalOutput_snapshot (terminals : List (String × TerminalState))
    (terminalId : String) (t : TerminalState)
    (h : terminals.lookup terminalId = some t) :
    (t.exitCode = none → t.signal = none →
        terminalOutput terminals terminalId
          = Except.ok ⟨String.join t.output, none, false⟩) ∧
    (∀ c, t.exitCode = some c →
        terminalOutput terminals terminalId
          = Except.ok ⟨String.join t.output, some ⟨some c, none⟩, false⟩) := by
  constructor
  · intro h1 h2
    simp [terminalOutput, h, h1, h2]
  · intro c hc
    simp [terminalOutput, h, hc]

/-- Witness for claim C7: the scenario terminal shows its partial buffer
with a null status before exit, and the full buffer with `exitCode = 2`
after exit. -/
theorem terminalOutput_snapshot_witness :
    terminalOutput [("term-1", runningTerminal)] "term-1"
        = Except.ok ⟨"partial ", none, false⟩ ∧
    terminalOutput [("term-1", exitedTerminal)] "term-1"
        = Except.ok ⟨"partial output", some ⟨some 2, none⟩, false⟩ :=
  ⟨(terminalOutput_snapshot [("term-1", runningTerminal)] "term-1" runningTerminal
      rfl).1 rfl rfl,
    (terminalOutput_snapshot [("term-1", exitedTerminal)] "term-1" exitedTerminal
      rfl).2 2 rfl⟩

/-- `stopTerminalLoop` kills exactly the terminals that have not exited,
in tracking order. -/
theorem stopTerminalLoop_eq (l : List (String × TerminalState)) :
    stopTerminalLoop l
      = (l.filter fun p => p.2.exitCode.isNone && p.2.signal.isNone).map
          fun p => StopEffect.killTerminal p.1 := by
  induction l with
  | nil => rfl
  | cons p rest ih =>
    obtain ⟨terminalId, terminal⟩ := p
    cases hp : terminal.exitCode.isNone && terminal.signal.isNone with
    | true => simp [stopTerminalLoop, hp, List.filter_cons, ih]
    | false => simp [stopTerminalLoop, hp, List.filter_cons, ih]

/-- Claim C8: the first `stop` sends SIGTERM to every tracked terminal that
has not exited and (when one is attached) to the subprocess, and clears the
terminal map, subprocess, connection and session id; a second `stop` on the
resulting state is a no-op that sends nothing. -/
theorem stop_idempotent (s : WrapperState) :
    (stop s).1 = ⟨[], none, none, none⟩ ∧
    (stop s).2
      = ((s.terminals.filter fun p => p.2.exitCode.isNone && p.2.signal.isNone).map
          fun p => StopEffect.killTerminal p.1)
        ++ (if s.subprocess.isSome then [StopEffect.killSubprocess] else []) ∧
    stop (stop s).1 = ((stop s).1, []) := by
  have hstate : (stop s).1 = ⟨[], none, none, none⟩ := by
    cases hsub : s.subprocess <;> simp [stop, hsub]
  refine ⟨hstate, ?_, ?_⟩
  · cases hsub : s.subprocess <;>
      simp [stop, hsub, stopTerminalLoop_eq]
  · rw [hstate]
    rfl

/-- Symmetry of a failing string comparison. -/
theorem beq_comm_false (a b : String) (h : (a == b) = false) : (b == a) = false := by
  cases hx : b == a
  · rfl
  · have hab : a = b := (eq_of_beq hx).symm
    rw [hab] at h
    simp at h

/-- Overwriting an existing key makes it map to the new value. -/
theorem lookup_map_overwrite (k v : String) :
    ∀ m : List (String × String), m.any (fun p => p.1 == k) = true →
      (m.map fun p => bif p.1 == k then (k, v) else p).lookup k = some v := by
  intro m
  induction m with
  | nil => intro h; simp at h
  | cons p rest ih =>
    intro hany
    cases hp : p.1 == k with
    | true =>
      simp only [List.map_cons, hp, cond_true]
      simp [List.lookup]
    | false =>
      have hkp : (k == p.1) = false := beq_comm_false p.1 k hp
      have hrest : rest.any (fun p => p.1 == k) = true := by
        rw [List.any_cons, hp] at hany
        simpa using hany
      simp only [List.map_cons, hp, cond_false]
      simp [List.lookup, hkp]
      exact ih hrest

/-- Appending a fresh key makes it visible at its value. -/
theorem lookup_append_new (k v : String) :
    ∀ m : List (String × String), m.any (fun p => p.1 == k) = false →
      (m ++ [(k, v)]).lookup k = some v := by
  intro m
  induction m with
  | nil => intro _; simp [List.lookup]
  | cons p rest ih =>
    intro hany
    rw [List.any_cons] at hany
    have hp : (p.1 == k) = false := (Bool.or_eq_false_iff.mp hany).1
    have hrest : rest.any (fun p => p.1 == k) = false := (Bool.or_eq_false_iff.mp hany).2
    have hkp : (k == p.1) = false := beq_comm_false p.1 k hp
    simp [List.cons_append, List.lookup, hkp]
    exact ih hrest

/-- Looking up the key just written by `setEnvKey` yields the new value. -/
theorem lookup_setEnvKey_self (m : List (String × String)) (k v : String) :
    (setEnvKey m k v).lookup k = some v := by
  cases hany : m.any (fun p => p.1 == k) with
  | true =>
    simp only [setEnvKey, hany, if_true]
    exact lookup_map_overwrite k v m hany
  | false =>
    simp only [setEnvKey, hany, Bool.false_eq_true, if_false]
    exact lookup_append_new k v m hany

/-- Overwriting one key leaves lookups of other keys unchanged. -/
theorem lookup_map_overwrite_ne (k v q : String) (hq : (q == k) = false) :
    ∀ m : List (String × String),
      (m.map fun p => bif p.1 == k then (k, v) else p).lookup q = m.lookup q := by
  intro m
  induction m with
  | nil => rfl
  | cons p rest ih =>
    cases hp : p.1 == k with
    | true =>
      have hpk : p.1 = k := eq_of_beq hp
      simp only [List.map_cons, hp, cond_true]
      simp [List.lookup, hq, hpk]
      exact ih
    | false =>
      simp only [List.map_cons, hp, cond_false]
      cases hqp : q == p.1 with
      | true => simp [List.lookup, hqp]
      | false =>
        simp [List.lookup, hqp]
        exact ih

/-- Appending one key leaves lookups of other keys unchanged. -/
theorem lookup_append_ne (k v q : String) (hq : (q == k) = false) :
    ∀ m : List (String × String), (m ++ [(k, v)]).lookup q = m.lookup q := by
  intro m
  induction m with
  | nil => simp [List.lookup, hq]
  | cons p rest ih =>
    cases hqp : q == p.1 with
    | true => simp [List.lookup, hqp]
    | false =>
      simp [List.cons_append, List.lookup, hqp]
      exact ih

/-- `setEnvKey` leaves other keys untouched. -/
theorem lookup_setEnvKey_ne (m : List (String × String)) (k v q : String)
    (h : (q == k) = false) : (setEnvKey m k v).lookup q = m.lookup q := by
  cases hany : m.any (fun p => p.1 == k) with
  | true =>
    simp only [setEnvKey, hany, if_true]
    exact lookup_map_overwrite_ne k v q h m
  | false =>
    simp only [setEnvKey, hany, Bool.false_eq_true, if_false]
    exact lookup_append_ne k v q h m

/-- `objectAssign` leaves keys outside the entry list untouched. -/
theorem lookup_objectAssign_not_mem (e m : List (String × String)) (q : String)
    (h : ∀ p ∈ e, (q == p.1) = false) :
    (objectAssign m e).lookup q = m.lookup q := by
  induction e generalizing m with
  | nil => rfl
  | cons p rest ih =>
    have hstep : objectAssign m (p :: rest) = objectAssign (setEnvKey m p.1 p.2) rest := rfl
    rw [hstep, ih (setEnvKey m p.1 p.2) fun p' hp' => h p' (List.mem_cons_of_mem _ hp'),
        lookup_setEnvKey_ne m p.1 p.2 q (h p (List.mem_cons_self p rest))]

/-- After `objectAssign`, every entry with a unique key in the entry list
is visible at its assigned value. -/
theorem lookup_objectAssign_mem (k v : String) :
    ∀ (e m : List (String × String)), (e.map Prod.fst).Nodup → (k, v) ∈ e →
      (objectAssign m e).lookup k = some v := by
  intro e
  induction e with
  | nil =>
    intro m _ hmem
    simp at hmem
  | cons p rest ih =>
    intro m hnodup hmem
    have hstep : objectAssign m (p :: rest) = objectAssign (setEnvKey m p.1 p.2) rest := rfl
    rw [hstep]
    have hcons : (p.1 :: rest.map Prod.fst).Nodup := by simpa using hnodup
    have hk1 : p.1 ∉ rest.map Prod.fst := (List.nodup_cons.mp hcons).1
    have htail : (rest.map Prod.fst).Nodup := (List.nodup_cons.mp hcons).2
    rcases List.mem_cons.mp hmem with hhead | htail2
    · have hp1 : p.1 = k := by rw [← hhead]
      have hp2 : p.2 = v := by rw [← hhead]
      have hnot : ∀ p' ∈ rest, (k == p'.1) = false := by
        intro p' hp'
        cases hx : k == p'.1
        · rfl
        · exfalso
          apply hk1
          rw [hp1, eq_of_beq hx]
          exact List.mem_map_of_mem Prod.fst hp'
      rw [lookup_objectAssign_not_mem rest (setEnvKey m p.1 p.2) k hnot, hp1, hp2]
      exact lookup_setEnvKey_self m k v
    · exact ih (setEnvKey m p.1 p.2) htail htail2

/-- Claim C9: `createTerminal` with an `env` map merges the entries into
the orchestrator's global `process.env` rather than a per-terminal copy:
the merge persists after the call, each (uniquely keyed) entry is readable
from the global environment, and the next terminal spawned without any
`env` of its own inherits the mutated global map. -/
theorem createTerminal_env_global (st : TerminalSpawnState) (cmd1 cmd2 : String)
    (entries : List (String × String)) :
    (createTerminal st cmd1 (some entries)).processEnv
        = objectAssign st.processEnv entries ∧
    (createTerminal (createTerminal st cmd1 (some entries)) cmd2 none).spawned
        = (createTerminal st cmd1 (some entries)).spawned
          ++ [⟨cmd2, (createTerminal st cmd1 (some entries)).processEnv⟩] ∧
    (∀ k v, (entries.map Prod.fst).Nodup → (k, v) ∈ entries →
        ((createTerminal st cmd1 (some entries)).processEnv).lookup k = some v) :=
  ⟨rfl, rfl, fun k v hnodup hmem =>
    lookup_objectAssign_mem k v entries st.processEnv hnodup hmem⟩

/-- Witness for claim C9: merging `FOO=bar` lands in the global environment
and is inherited by the next terminal spawned with no `env`. -/
theorem createTerminal_env_global_witness :
    ((createTerminal ⟨[("PATH", "x")], []⟩ "c1" (some [("FOO", "bar")])).processEnv).lookup "FOO"
        = some "bar" ∧
    (createTerminal (createTerminal ⟨[("PATH", "x")], []⟩ "c1" (some [("FOO", "bar")]))
        "c2" none).spawned
      = (createTerminal ⟨[("PATH", "x")], []⟩ "c1" (some [("FOO", "bar")])).spawned
        ++ [⟨"c2",
            (createTerminal ⟨[("PATH", "x")], []⟩ "c1" (some [("FOO", "bar")])).processEnv⟩] :=
  ⟨(createTerminal_env_global ⟨[("PATH", "x")], []⟩ "c1" "c2" [("FOO", "bar")]).2.2
      "FOO" "bar" (by simp) (by simp),
    (createTerminal_env_global ⟨[("PATH", "x")], []⟩ "c1" "c2" [("FOO", "bar")]).2.1⟩

/-- Claim C10: `requestPermission` always answers with a `selected`
outcome — never a rejection, never a thrown error — choosing the first
allow-capable option's id, else the first option's id, else the empty
string. -/
theorem requestPermission_always_selected (options : List PermissionOption) :
    requestPermission options = PermissionOutcome.selected (claimSelectedId options) := by
  cases hf : options.find? fun opt => opt.kind == "allow_once" || opt.kind == "allow_always" with
  | some allowOption => simp [requestPermission, claimSelectedId, hf]
  | none =>
    cases options with
    | nil => rfl
    | cons opt rest =>
      simp only [requestPermission, claimSelectedId, hf, List.head?, Option.map, jsOrDefault]
      cases hid : opt.optionId == "" with
      | true =>
        have h0 : opt.optionId = "" := eq_of_beq hid
        simp [hid, h0]
      | false => simp

end ACPWrapper

end Spec2Proof
